import Mathlib

/-!
Verification of the `utile_cli` terminal-UI library (`src/cli.rs`).

Shallow embedding conventions:
* Rust `String` content is modelled as `Str := List Char`; Rust's `.len()` is a
  byte count, which coincides with the character count on the single-byte
  (ASCII) characters every property here uses.
* `usize` is modelled as `Nat`, `i32` as `Int`; the Rust `as` casts that can
  truncate or sign-extend are made explicit (`wrap32` for a cast into `i32`,
  `i32ToUsize` for the sign-extending cast `i32 as usize`).
* The pancurses window is modelled by the cursor position alone (`TermState`);
  `printw` advances the cursor by the number of characters written (no
  line-wrap handling — the contents involved contain no newline, except the
  explicit `raw_br`/`outbr` which is modelled directly).
* Key input is modelled as a `List Input`; an exhausted list models
  `getch()` returning `None`.
* Rust panics (index out of range, division by zero, the explicit `panic!` in
  `yesno`) are modelled by `Option`, `none` standing for the panic.
-/

/-- Rust `String` content, as a list of characters. -/
abbrev Str := List Char

/-- Rust `str::to_uppercase` (ASCII fragment, as used by `yesno`). -/
def strUpper (s : Str) : Str := s.map Char.toUpper

/-- Rust `str::to_lowercase` (ASCII fragment, as used by `yesno`). -/
def strLower (s : Str) : Str := s.map Char.toLower

/-- Value of an `i32` after Rust wrapping conversion: reduce into
`[-2^31, 2^31)`. -/
def wrap32 (i : Int) : Int := (i + 2 ^ 31) % 2 ^ 32 - 2 ^ 31

/-- Rust `i32 as usize` on a 64-bit target: sign-extend, then reinterpret,
i.e. reduce modulo `2^64`. -/
def i32ToUsize (i : Int) : Nat := (i % 2 ^ 64).toNat

/-- Rust `usize as i32` (used for the `posx`/`posy` fields): truncate to 32
bits, signed. In the source `posy` additionally goes through
`(_ as f64).floor() as i32`; the `f64` round trip is value-preserving below
`2^53` and every theorem below stays far under that bound, where the float
path and `wrap32` agree. -/
def usizeToI32 (n : Nat) : Int := wrap32 n

/-- `struct Layer` from `src/cli.rs`. -/
structure Layer where
  posx : Int
  posy : Int
  inner_content : Str
  content : Str
  length : Nat
  deriving Repr, DecidableEq

/-- `Layer::new(posx, posy)`. -/
def Layer.new (posx posy : Int) : Layer :=
  { posx := posx, posy := posy, content := [], inner_content := [], length := 0 }

/-- `Layer::get_content` (returns a clone of the outer content). -/
def Layer.get_content (l : Layer) : Str := l.content

/-- `Layer::set_content`: replace the content and grow `length` on demand. -/
def Layer.set_content (l : Layer) (c : Str) : Layer :=
  let l := { l with content := c }
  if l.content.length > l.length then { l with length := l.content.length } else l

/-- `Layer::inner_to_outer`: replace the outer content with the inner one. -/
def Layer.inner_to_outer (l : Layer) : Layer :=
  l.set_content l.inner_content

/-- `Layer::shrink`: reset `length` to the current content length. -/
def Layer.shrink (l : Layer) : Layer :=
  { l with length := l.content.length }

/-- The Layer footprint invariant from the spec: `length >= len(content)`. -/
def LayerInv (l : Layer) : Prop := l.content.length ≤ l.length

instance (l : Layer) : Decidable (LayerInv l) := by
  unfold LayerInv; infer_instance

theorem set_content_length (l : Layer) (c : Str) :
    (l.set_content c).length = max l.length c.length := by
  simp only [Layer.set_content]
  split <;> simp_all <;> omega

theorem set_content_content (l : Layer) (c : Str) :
    (l.set_content c).content = c := by
  simp only [Layer.set_content]
  split <;> rfl

theorem set_content_inner (l : Layer) (c : Str) :
    (l.set_content c).inner_content = l.inner_content := by
  simp only [Layer.set_content]
  split <;> rfl

theorem set_content_pos (l : Layer) (c : Str) :
    (l.set_content c).posx = l.posx ∧ (l.set_content c).posy = l.posy := by
  simp only [Layer.set_content]
  split <;> exact ⟨rfl, rfl⟩

/-- Claim C1: the Layer footprint invariant `length ≥ len(content)` holds after
every operation: `set_content new` sets `length` to
`max(old length, len(new))`, hence is non-decreasing across any sequence of
`set_content` (and `inner_to_outer`) calls, and `shrink` resets `length` to
exactly `len(content)`. -/
theorem layer_length_invariant :
    (∀ (l : Layer) (c : Str),
        (l.set_content c).length = max l.length c.length) ∧
    (∀ (l : Layer) (c : Str), LayerInv (l.set_content c)) ∧
    (∀ (l : Layer) (c : Str), l.length ≤ (l.set_content c).length) ∧
    (∀ l : Layer, LayerInv l.inner_to_outer ∧ l.length ≤ l.inner_to_outer.length) ∧
    (∀ l : Layer, l.shrink.length = l.shrink.content.length ∧ LayerInv l.shrink) ∧
    (∀ (l : Layer) (cs : List Str), l.length ≤ (cs.foldl Layer.set_content l).length) := by
  have hlen : ∀ (l : Layer) (c : Str),
      (l.set_content c).length = max l.length c.length := set_content_length
  have hinv : ∀ (l : Layer) (c : Str), LayerInv (l.set_content c) := by
    intro l c
    unfold LayerInv
    rw [set_content_content, set_content_length]
    exact le_max_right _ _
  have hmono : ∀ (l : Layer) (c : Str), l.length ≤ (l.set_content c).length := by
    intro l c
    rw [set_content_length]
    exact le_max_left _ _
  refine ⟨hlen, hinv, hmono, ?_, ?_, ?_⟩
  · intro l
    exact ⟨hinv l l.inner_content, hmono l l.inner_content⟩
  · intro l
    exact ⟨rfl, le_of_eq rfl⟩
  · intro l cs
    induction cs generalizing l with
    | nil => exact le_refl _
    | cons c cs ih =>
        exact le_trans (hmono l c) (ih (l.set_content c))

/-- `struct Layer2D` from `src/cli.rs`. -/
structure Layer2D where
  posx : Int
  posy : Int
  length : Nat
  height : Nat
  layers : List Layer
  char_count : Nat
  stack_loc : Int
  deriving Repr, DecidableEq

/-- `Layer2D::populate`: clone the populator into every cell, overriding each
cell's position (`posx = (i % length * char_count) as i32`,
`posy = ((i / length) as f64).floor() as i32`, the latter an integer division
already). -/
def Layer2D.populate (l2d : Layer2D) (populator : Layer) : Layer2D :=
  let cc := populator.get_content.length
  { l2d with
      char_count := cc,
      layers := (List.range (l2d.length * l2d.height)).map (fun i =>
        { populator with
            posx := usizeToI32 ((i % l2d.length) * cc),
            posy := usizeToI32 (i / l2d.length) }) }

/-- `Layer2D::new`: build the record, then `populate`. -/
def Layer2D.new (posx posy : Int) (length height : Nat) (populator : Layer) : Layer2D :=
  Layer2D.populate
    { posx := posx, posy := posy, length := length, height := height,
      layers := [], char_count := 0, stack_loc := 0 }
    populator

/-- `Layer2D::get` (and `index`, which differs only in mutability):
`self.layers[x + y * self.length]`; `none` models the out-of-bounds panic. -/
def Layer2D.get (l2d : Layer2D) (x y : Nat) : Option Layer :=
  l2d.layers.get? (x + y * l2d.length)

/-- `locate_idx(len, l)` from `src/cli.rs`: `l as usize` when `l > 0`, and
`((len - 1) as i32 + l) as usize` when `l <= 0`.
`len - 1` is `usize` subtraction followed by a truncating cast to `i32`;
`(len : Int) - 1` under `wrap32` reproduces its release-mode value (including
the wraparound at `len = 0` — every theorem below has `len ≥ 1` anyway); the
final cast sign-extends into `usize`. -/
def locate_idx (len : Nat) (l : Int) : Nat :=
  match decide (l ≤ 0) with
  | false => i32ToUsize l
  | true => i32ToUsize (wrap32 (wrap32 ((len : Int) - 1) + l))

/-- The `Terminal`'s `LayerArrangement` (field `layers`): a stack of `Layer2D`.
The pancurses `Window` is modelled separately by `TermState`. -/
structure LayerArrangement where
  layer_stack : List Layer2D
  deriving Repr, DecidableEq

/-- `LayerArrangement::push` (`Vec::push`). -/
def LayerArrangement.push (a : LayerArrangement) (layer : Layer2D) : LayerArrangement :=
  { layer_stack := a.layer_stack ++ [layer] }

/-- `Terminal::add_layer`: wrap the Layer in a fresh 1x1 `Layer2D`, stamp its
`stack_loc` with the negated push-time stack size, and push it. -/
def Terminal.add_layer (a : LayerArrangement) (layer : Layer) : LayerArrangement :=
  let r2d := Layer2D.new layer.posx layer.posy 1 1 layer
  let r2d := { r2d with stack_loc := -(a.layer_stack.length : Int) }
  a.push r2d

/-- `Terminal::add_layer2d`: the source clones the argument into `r`, stamps
`r.stack_loc` with the negated push-time stack size, and then pushes the
ORIGINAL `layer` (the stamped clone `r` is discarded). -/
def Terminal.add_layer2d (a : LayerArrangement) (layer : Layer2D) : LayerArrangement :=
  let _r := { layer with stack_loc := -(a.layer_stack.length : Int) }
  a.push layer

/-- `enum Key` from `src/cli.rs`. -/
inductive Key where
  | Alpha : Char → Key
  | Enter : Key
  | Space : Key
  | Backspace : Key
  | ArrowUp : Key
  | ArrowDown : Key
  | ArrowLeft : Key
  | ArrowRight : Key
  | F1 : Key
  | F2 : Key
  | F3 : Key
  | F4 : Key
  | F5 : Key
  | F6 : Key
  | F7 : Key
  | F8 : Key
  | F9 : Key
  | F10 : Key
  | F11 : Key
  | F12 : Key
  deriving Repr, DecidableEq

/-- The subset of `pancurses::Input` that `Terminal::get_char` matches on;
`Other` stands for every remaining variant, all of which fall into the `_`
arm. -/
inductive Input where
  | Character : Char → Input
  | KeyUp : Input
  | KeyDown : Input
  | KeyLeft : Input
  | KeyRight : Input
  | KeyF1 : Input
  | KeyF2 : Input
  | KeyF3 : Input
  | KeyF4 : Input
  | KeyF5 : Input
  | KeyF6 : Input
  | KeyF7 : Input
  | KeyF8 : Input
  | KeyF9 : Input
  | KeyF10 : Input
  | KeyF11 : Input
  | KeyF12 : Input
  | Other : Input
  deriving Repr, DecidableEq

/-- `Terminal::get_char`, as the pure mapping from the `getch()` result to the
`Key` symbol. The source's first two arms are the or-pattern
`Character('\n') | Character('\r')`, then `Character('\x08')`, then the
catch-all `Character(c)`. -/
def get_char : Option Input → Option Key
  | some (Input.Character c) =>
      if c = '\n' ∨ c = '\r' then some Key.Enter
      else if c = '\x08' then some Key.Backspace
      else some (Key.Alpha c)
  | some Input.KeyUp => some Key.ArrowUp
  | some Input.KeyDown => some Key.ArrowDown
  | some Input.KeyLeft => some Key.ArrowLeft
  | some Input.KeyRight => some Key.ArrowRight
  | some Input.KeyF1 => some Key.F1
  | some Input.KeyF2 => some Key.F2
  | some Input.KeyF3 => some Key.F3
  | some Input.KeyF4 => some Key.F4
  | some Input.KeyF5 => some Key.F5
  | some Input.KeyF6 => some Key.F6
  | some Input.KeyF7 => some Key.F7
  | some Input.KeyF8 => some Key.F8
  | some Input.KeyF9 => some Key.F9
  | some Input.KeyF10 => some Key.F10
  | some Input.KeyF11 => some Key.F11
  | some Input.KeyF12 => some Key.F12
  | some Input.Other => none
  | none => none

/-- The observable pancurses window state: the cursor cell. The screen
contents are not modelled; `printw` of newline-free text advances `curx` by
the text length. -/
structure TermState where
  curx : Int
  cury : Int
  deriving Repr, DecidableEq

/-- `Terminal::raw_move(x, y)`. -/
def raw_move (x y : Int) (_st : TermState) : TermState :=
  { curx := x, cury := y }

/-- `Terminal::raw_move_next` (`raw_move_offset(1, 0)`). -/
def raw_move_next (st : TermState) : TermState :=
  { st with curx := st.curx + 1 }

/-- `Terminal::out(s)` for newline-free `s`: `printw` advances the cursor by
`len(s)`; the `refresh()` it performs saves and restores the cursor, so it has
no further observable effect here. -/
def Terminal.out (s : Str) (st : TermState) : TermState :=
  { st with curx := st.curx + s.length }

/-- `Terminal::outbr`: `printw("\n")` moves the cursor to the start of the
next line, then `refresh()` (cursor-neutral). -/
def Terminal.outbr (st : TermState) : TermState :=
  { curx := 0, cury := st.cury + 1 }

/-- `Terminal::draw_layer(l)`: move to the layer origin, blank `l.length`
cells cursor-neutrally (`raw_out_static`), then write the content
(`raw_out`), leaving the cursor right after it. -/
def draw_layer (l : Layer) (_st : TermState) : TermState :=
  { curx := l.posx + l.get_content.length, cury := l.posy }

/-- `Terminal::draw_layer_static(l)`: `draw_layer` bracketed by a cursor
save/restore — cursor-neutral. -/
def draw_layer_static (_l : Layer) (st : TermState) : TermState :=
  st

/-- The shared `while self.raw_posx() != target { move by offs; delch }` loop
of `raw_delete_offset` and `raw_delete_to`. The loop is wrapped in fuel that
each caller sets to the exact walking distance `|target - cur|`, which the
sign choice of `offs` makes sufficient; the returned pair is the final cursor
column and the number of `delch` calls performed. -/
def deleteWalk (target offs : Int) : Nat → Int → Nat → Int × Nat
  | 0, cur, count => (cur, count)
  | fuel + 1, cur, count =>
      if cur = target then (cur, count)
      else deleteWalk target offs fuel (cur + offs) (count + 1)

/-- `Terminal::raw_delete_to(x)`: infer the direction by comparing `x` with
the current column, then walk and delete. Returns (final column, number of
deletions). -/
def raw_delete_to (cur x : Int) : Int × Nat :=
  let offs : Int := if x > cur then 1 else -1
  deleteWalk x offs (x - cur).natAbs cur 0

/-- `Terminal::raw_delete_offset(xoffs)`: `let offs = xoffs / xoffs.abs()`
divides by zero when `xoffs = 0` (a Rust panic, modelled by `none`); otherwise
walk toward `here + xoffs` deleting. -/
def raw_delete_offset (cur xoffs : Int) : Option (Int × Nat) :=
  if (xoffs.natAbs : Int) = 0 then none
  else
    let offs : Int := xoffs / (xoffs.natAbs : Int)
    some (deleteWalk (cur + xoffs) offs xoffs.natAbs cur 0)

/-- `Terminal::ask`'s key loop. State: the typed-string Layer `r` and the
cursor. One `get_char_hidden` per iteration: an exhausted input list models
`getch()` returning `None`, which exits the `while let`; `get_char_hidden`'s
echo suppression saves and restores the cursor, so it is cursor-neutral
here. -/
def askLoop : List Input → Layer → TermState → Layer × TermState
  | [], r, st => (r, st)
  | inp :: rest, r, st =>
      match get_char (some inp) with
      | none => (r, st)
      | some Key.Enter => (r, st)
      | some Key.Backspace =>
          match r.get_content with
          | [] => askLoop rest r (raw_move_next st)
          | _ :: _ =>
              let r2 := r.set_content r.get_content.dropLast
              askLoop rest r2 (draw_layer r2 st)
      | some (Key.Alpha c) =>
          let r2 := r.set_content (r.get_content ++ [c])
          askLoop rest r2 (draw_layer r2 st)
      | some _ => askLoop rest r st

/-- `Terminal::ask(prefix)`: print the prefix, anchor a fresh Layer at the
cursor, run the key loop, return the final content. -/
def Terminal.ask (pfx : Str) (st : TermState) (ins : List Input) : Str × TermState :=
  let st := Terminal.out pfx st
  let r := Layer.new st.curx st.cury
  let res := askLoop ins r st
  (res.1.get_content, res.2)

/-- `Terminal::mask`'s key loop. State: the displayed Layer `r` (mask
characters), the hidden real string `s`, and the cursor. -/
def maskLoop (mchar : Char) : List Input → Layer → Str → TermState → Str × Layer × TermState
  | [], r, s, st => (s, r, st)
  | inp :: rest, r, s, st =>
      match get_char (some inp) with
      | none => (s, r, st)
      | some Key.Enter => (s, r, st)
      | some Key.Backspace =>
          match r.get_content with
          | [] => maskLoop mchar rest r s (raw_move_next st)
          | _ :: _ =>
              let r2 := r.set_content r.get_content.dropLast
              maskLoop mchar rest r2 s.dropLast (draw_layer r2 st)
      | some (Key.Alpha c) =>
          let r2 := r.set_content (r.get_content ++ [mchar])
          maskLoop mchar rest r2 (s ++ [c]) (draw_layer r2 st)
      | some _ => maskLoop mchar rest r s st

/-- `Terminal::mask(prefix, mask)`: like `ask`, but the Layer shows mask
characters while the real characters accumulate in the hidden string, which is
returned. -/
def Terminal.mask (pfx : Str) (mchar : Char) (st : TermState) (ins : List Input) :
    Str × Layer × TermState :=
  let st := Terminal.out pfx st
  let r := Layer.new st.curx st.cury
  maskLoop mchar ins r [] st

/-- Rust `str::split(sep)` on our character lists (always at least one
piece). -/
def splitOnChar (sep : Char) : Str → List Str
  | [] => [[]]
  | c :: rest =>
      let r := splitOnChar sep rest
      if c = sep then [] :: r
      else (c :: r.headD []) :: r.tail

/-- The `format!("({}/{})", y, n)` display string of `yesno`. -/
def ynFormat (y n : Str) : Str :=
  ['('] ++ y ++ ['/'] ++ n ++ [')']

/-- The selection-change block at the bottom of `yesno`'s loop:
`true => { y = { n = n.to_lowercase(); y.to_uppercase() } }` and dually. -/
def yesnoRender (y n : Str) : Bool → Str × Str
  | true => (strUpper y, strLower n)
  | false => (strLower y, strUpper n)

/-- `Terminal::yesno`'s key loop. State: the `y`/`n` display strings, the
pending result `ret`, the display Layer, and the cursor. `Enter` breaks;
the arrows set `ret` and fall through to the re-render; other keys
`continue` past the re-render. -/
def yesnoLoop : List Input → Str → Str → Bool → Layer → TermState → Bool × TermState
  | [], _, _, ret, _, st => (ret, st)
  | inp :: rest, y, n, ret, ynl, st =>
      match get_char (some inp) with
      | none => (ret, st)
      | some Key.Enter => (ret, st)
      | some Key.ArrowRight =>
          let p := yesnoRender y n false
          let ynl2 := ynl.set_content (ynFormat p.1 p.2)
          yesnoLoop rest p.1 p.2 false ynl2 (draw_layer ynl2 st)
      | some Key.ArrowLeft =>
          let p := yesnoRender y n true
          let ynl2 := ynl.set_content (ynFormat p.1 p.2)
          yesnoLoop rest p.1 p.2 true ynl2 (draw_layer ynl2 st)
      | some _ => yesnoLoop rest y n ret ynl st

/-- `Terminal::yesno(suffix, default)`: split the suffix on `'/'`, `panic!`
(modelled by `none`) when that yields a single piece, uppercase the default
side, draw, then run the key loop. -/
def Terminal.yesno (suffix : Str) (dflt : Bool) (st : TermState) (ins : List Input) :
    Option (Bool × TermState) :=
  let yn := splitOnChar '/' suffix
  if yn.length = 1 then none
  else
    let ynl := Layer.new st.curx st.cury
    let y := yn.headD []
    let n := yn.getD 1 []
    let p : Str × Str := match dflt with
      | true => (strUpper y, n)
      | false => (y, strUpper n)
    let ynl := ynl.set_content (ynFormat p.1 p.2)
    let st := draw_layer ynl st
    some (yesnoLoop ins p.1 p.2 dflt ynl st)

/-- The initial item Layers of `Terminal::choices`: for each item string, a
Layer one row below the previous one, carrying the item as `inner_content`;
the first one shows `prefix + item`, the others the bare item. The
`draw_layer_static` calls are cursor-neutral. -/
def choicesInit (pfx : Str) (strs : List Str) (st : TermState) : List Layer :=
  strs.enum.map (fun p =>
    let l := Layer.new st.curx (st.cury + (p.1 : Int))
    let l := { l with inner_content := p.2 }
    if p.1 = 0 then l.set_content (pfx ++ l.inner_content) else l.inner_to_outer)

/-- The re-render pass at the bottom of `choices`'s loop: the selected item
gets `prefix + inner_content`, every other one `inner_to_outer`. -/
def choicesRender (pfx : Str) (y : Nat) (layers : List Layer) : List Layer :=
  layers.enum.map (fun p =>
    if p.1 = y then p.2.set_content (pfx ++ p.2.inner_content)
    else p.2.inner_to_outer)

/-- `Terminal::choices`'s key loop. State: the item Layers, the selection `y`,
and the cursor. `ArrowDown` advances `y` under the guard
`y < layers.len() - 1` (`Nat` subtraction, as the `usize` one — every run
below has a non-empty list), `ArrowUp` retreats under `y > 0`, both fall
through to the re-render; other keys `continue`. -/
def choicesLoop (pfx : Str) : List Input → List Layer → Nat → TermState →
    List Layer × Nat × TermState
  | [], layers, y, st => (layers, y, st)
  | inp :: rest, layers, y, st =>
      match get_char (some inp) with
      | none => (layers, y, st)
      | some Key.Enter => (layers, y, st)
      | some Key.ArrowDown =>
          let y2 := if y < layers.length - 1 then y + 1 else y
          choicesLoop pfx rest (choicesRender pfx y2 layers) y2 st
      | some Key.ArrowUp =>
          let y2 := if 0 < y then y - 1 else y
          choicesLoop pfx rest (choicesRender pfx y2 layers) y2 st
      | some _ => choicesLoop pfx rest layers y st

/-- `Terminal::choices(prefix, strs)`: newline, build and draw the item
Layers, step the cursor below the list, run the key loop, and return
`layers[y].inner_content` (`none` models the out-of-bounds panic on an empty
list). -/
def Terminal.choices (pfx : Str) (strs : List Str) (st : TermState) (ins : List Input) :
    Option Str × TermState :=
  let st := Terminal.outbr st
  let layers := choicesInit pfx strs st
  let st := { st with cury := st.cury + (layers.length : Int) }
  let res := choicesLoop pfx ins layers 0 st
  ((res.1.get? res.2.1).map Layer.inner_content, res.2.2)

theorem wrap32_eq_self {i : Int} (h1 : -(2 ^ 31) ≤ i) (h2 : i < 2 ^ 31) :
    wrap32 i = i := by
  unfold wrap32
  rw [Int.emod_eq_of_lt (by omega) (by omega)]
  omega

theorem i32ToUsize_eq_toNat {i : Int} (h1 : 0 ≤ i) (h2 : i < 2 ^ 64) :
    i32ToUsize i = i.toNat := by
  unfold i32ToUsize
  rw [Int.emod_eq_of_lt h1 h2]

theorem locate_idx_of_pos {len : Nat} {l : Int} (h : ¬ l ≤ 0) :
    locate_idx len l = i32ToUsize l := by
  unfold locate_idx
  rw [decide_eq_false h]

theorem locate_idx_of_nonpos {len : Nat} {l : Int} (h : l ≤ 0) :
    locate_idx len l = i32ToUsize (wrap32 (wrap32 ((len : Int) - 1) + l)) := by
  unfold locate_idx
  rw [decide_eq_true h]

/-- Claim C2 counterexample: the claim's formula `locate_idx(n, l) = n - 1 + l`
for `l ≤ 0` fails at `n = 1, l = -1` (one below the bottom of a one-element
stack): the `as usize` cast sign-extends `-1` to `2^64 - 1` instead. -/
theorem locate_idx_claim_cex :
    ¬ ((locate_idx 1 (-1) : Int) = (1 : Int) - 1 + (-1)) := by decide

/-- Claim C2 (amended): for a stack length `1 ≤ n ≤ 2^31`, `locate_idx(n, l)`
returns `l` when `0 < l < 2^31` and `n - 1 + l` when `-(n-1) ≤ l ≤ 0`; in
particular `locate_idx(n, 0) = n - 1`, `locate_idx(n, -(n-1)) = 0`, and
`locate_idx(n, 1) = 1`. -/
theorem locate_idx_inrange (n : Nat) (l : Int) (hn : 1 ≤ n) (hn2 : (n : Int) ≤ 2 ^ 31) :
    (0 < l → l < 2 ^ 31 → locate_idx n l = l.toNat) ∧
    (l ≤ 0 → -((n : Int) - 1) ≤ l → locate_idx n l = ((n : Int) - 1 + l).toNat) ∧
    locate_idx n 0 = n - 1 ∧
    locate_idx n (-((n : Int) - 1)) = 0 ∧
    locate_idx n 1 = 1 := by
  have hnonpos : ∀ l' : Int, l' ≤ 0 → -((n : Int) - 1) ≤ l' →
      locate_idx n l' = ((n : Int) - 1 + l').toNat := by
    intro l' h0 hlo
    rw [locate_idx_of_nonpos h0]
    rw [@wrap32_eq_self ((n : Int) - 1) (by omega) (by omega),
        @wrap32_eq_self ((n : Int) - 1 + l') (by omega) (by omega)]
    exact i32ToUsize_eq_toNat (by omega) (by omega)
  have hpos : ∀ l' : Int, 0 < l' → l' < 2 ^ 31 → locate_idx n l' = l'.toNat := by
    intro l' h0 hhi
    rw [locate_idx_of_pos (by omega)]
    exact i32ToUsize_eq_toNat (by omega) (by omega)
  refine ⟨hpos l, hnonpos l, ?_, ?_, ?_⟩
  · rw [hnonpos 0 le_rfl (by omega)]
    omega
  · rw [hnonpos (-((n : Int) - 1)) (by omega) le_rfl]
    omega
  · rw [hpos 1 (by omega) (by omega)]
    rfl

/-- Witness for `locate_idx_inrange` at `n = 3`: `locate_idx(3, -1) = 1`,
`locate_idx(3, 0) = 2`, `locate_idx(3, 1) = 1`. -/
theorem locate_idx_inrange_witness :
    (1 : Nat) ≤ 3 ∧ ((3 : Nat) : Int) ≤ 2 ^ 31 ∧
    locate_idx 3 (-1) = ((3 : Int) - 1 + (-1)).toNat ∧
    locate_idx 3 0 = 3 - 1 ∧ locate_idx 3 1 = 1 :=
  ⟨by decide, by decide,
   (locate_idx_inrange 3 (-1) (by decide) (by decide)).2.1 (by decide) (by decide),
   (locate_idx_inrange 3 0 (by decide) (by decide)).2.2.1,
   (locate_idx_inrange 3 1 (by decide) (by decide)).2.2.2.2⟩

/-- Claim C3: in a `Layer2D` built by `populate` via `new`, `char_count` is
the populator's content length, the cell at sequence index `i < length*height`
has `posx = (i % length) * char_count` and `posy = i / length` (the in-range
hypotheses discharge the `as i32` casts), and `get(x, y)` addresses sequence
index `x + y * length`; in particular for `length = 3, height = 2` and a
one-character populator, cell 4 has `posx = 1` and `posy = 1`. -/
theorem populate_positions :
    (∀ (px py : Int) (L H : Nat) (pop : Layer) (i : Nat),
        i < L * H →
        ((i % L) * pop.get_content.length : Int) < 2 ^ 31 →
        ((i / L : Nat) : Int) < 2 ^ 31 →
        (Layer2D.new px py L H pop).char_count = pop.get_content.length ∧
        ∃ lay, (Layer2D.new px py L H pop).layers.get? i = some lay ∧
          lay.posx = ((i % L) * pop.get_content.length : Nat) ∧
          lay.posy = ((i / L : Nat) : Int)) ∧
    (∀ (l2d : Layer2D) (x y : Nat),
        l2d.get x y = l2d.layers.get? (x + y * l2d.length)) ∧
    (((Layer2D.new 0 0 3 2 ((Layer.new 0 0).set_content ['X'])).layers.get? 4).map
        (fun lay => (lay.posx, lay.posy)) = some (1, 1)) := by
  refine ⟨?_, fun _ _ _ => rfl, by decide⟩
  intro px py L H pop i hi hx hy
  refine ⟨rfl, ?_⟩
  unfold Layer2D.new Layer2D.populate
  simp only [List.get?_map, List.get?_range hi, Option.map_some]
  refine ⟨_, rfl, ?_, ?_⟩
  · exact wrap32_eq_self (by omega) hx
  · have h0 : (0 : Int) ≤ ((i / L : Nat) : Int) := Int.natCast_nonneg _
    exact wrap32_eq_self (by omega) hy

/-- Witness for `populate_positions`: the 3x2 grid populated by a
one-character Layer, at cell 4. -/
theorem populate_positions_witness :
    (4 : Nat) < 3 * 2 ∧
    ∃ lay, (Layer2D.new 0 0 3 2 ((Layer.new 0 0).set_content ['X'])).layers.get? 4 =
        some lay ∧
      lay.posx = ((4 % 3) * ((Layer.new 0 0).set_content ['X']).get_content.length : Nat) ∧
      lay.posy = ((4 / 3 : Nat) : Int) :=
  ⟨by decide,
   ((populate_positions.1 0 0 3 2 ((Layer.new 0 0).set_content ['X']) 4
      (by decide) (by decide) (by decide)).2)⟩

/-- Claim C8: `add_layer` stamps the pushed element's `stack_loc` with the
negated push-time stack size, but `add_layer2d` stamps a discarded clone and
pushes the original unchanged: after two `add_layer2d` pushes of a fresh
`Layer2D` (whose `stack_loc` is 0), the element stored at index 1 still has
`stack_loc = 0`, where the claim requires `-1`. -/
theorem add_layer2d_stack_loc :
    (∀ (a : LayerArrangement) (l : Layer),
        ((Terminal.add_layer a l).layer_stack.getLast?).map Layer2D.stack_loc =
          some (-(a.layer_stack.length : Int))) ∧
    (∀ (a : LayerArrangement) (l2d : Layer2D),
        (Terminal.add_layer2d a l2d).layer_stack.getLast? = some l2d) ∧
    (((Terminal.add_layer2d
          (Terminal.add_layer2d ⟨[]⟩ (Layer2D.new 0 0 1 1 (Layer.new 0 0)))
          (Layer2D.new 0 0 1 1 (Layer.new 0 0))).layer_stack.get? 1).map
        Layer2D.stack_loc = some 0) ∧
    (0 : Int) ≠ -(1 : Int) := by
  refine ⟨?_, ?_, by decide, by decide⟩
  · intro a l
    unfold Terminal.add_layer LayerArrangement.push
    simp [List.getLast?_concat]
  · intro a l2d
    unfold Terminal.add_layer2d LayerArrangement.push
    simp [List.getLast?_concat]

/-- Claim C9 counterexample: `raw_delete_offset` with offset 0 is not a
zero-iteration no-op — `let offs = xoffs / xoffs.abs()` divides by zero and
panics (modelled by `none`) before the loop is reached. -/
theorem raw_delete_offset_zero_cex : raw_delete_offset 3 0 = none := by decide

/-- Claim C9 (amended): `raw_delete_to` with a target column equal to the
current cursor column performs zero iterations and deletes nothing;
`raw_delete_offset` with offset 0 divides by zero (a panic, not a no-op),
which is why callers must guarantee a nonzero offset — with any nonzero
offset it runs without dividing by zero. -/
theorem delete_with_equal_target :
    (∀ cur : Int, raw_delete_to cur cur = (cur, 0)) ∧
    (∀ cur : Int, raw_delete_offset cur 0 = none) ∧
    (∀ (cur xoffs : Int), xoffs ≠ 0 → ∃ p, raw_delete_offset cur xoffs = some p) := by
  refine ⟨?_, ?_, ?_⟩
  · intro cur
    simp [raw_delete_to, deleteWalk]
  · intro cur
    simp [raw_delete_offset]
  · intro cur xoffs h
    have h2 : ¬ ((xoffs.natAbs : Int) = 0) := by
      simpa using h
    simp only [raw_delete_offset, h2, if_false]
    exact ⟨_, rfl⟩

/-- Witness for `delete_with_equal_target`: a nonzero offset runs without the
division-by-zero panic. -/
theorem delete_with_equal_target_witness :
    ((-3 : Int) ≠ 0) ∧ ∃ p, raw_delete_offset 7 (-3) = some p :=
  ⟨by decide, delete_with_equal_target.2.2 7 (-3) (by decide)⟩

/-- Claim C10: `get_char` never returns `Some(Key::Space)` — the `Space`
variant is unreachable as an output of the key mapping; a typed space
character comes through the catch-all `Character(c)` arm as `Alpha(' ')`. -/
theorem get_char_no_space :
    (∀ oi : Option Input, get_char oi ≠ some Key.Space) ∧
    get_char (some (Input.Character ' ')) = some (Key.Alpha ' ') := by
  refine ⟨?_, by decide⟩
  intro oi
  match oi with
  | none => simp [get_char]
  | some (Input.Character c) =>
      simp only [get_char]
      split
      · simp
      · split <;> simp
  | some Input.KeyUp => simp [get_char]
  | some Input.KeyDown => simp [get_char]
  | some Input.KeyLeft => simp [get_char]
  | some Input.KeyRight => simp [get_char]
  | some Input.KeyF1 => simp [get_char]
  | some Input.KeyF2 => simp [get_char]
  | some Input.KeyF3 => simp [get_char]
  | some Input.KeyF4 => simp [get_char]
  | some Input.KeyF5 => simp [get_char]
  | some Input.KeyF6 => simp [get_char]
  | some Input.KeyF7 => simp [get_char]
  | some Input.KeyF8 => simp [get_char]
  | some Input.KeyF9 => simp [get_char]
  | some Input.KeyF10 => simp [get_char]
  | some Input.KeyF11 => simp [get_char]
  | some Input.KeyF12 => simp [get_char]
  | some Input.Other => simp [get_char]

theorem splitOnChar_ne_nil (sep : Char) (s : Str) : splitOnChar sep s ≠ [] := by
  cases s with
  | nil => simp [splitOnChar]
  | cons c rest =>
      simp only [splitOnChar]
      split <;> simp

theorem splitOnChar_length_one_iff (sep : Char) (s : Str) :
    (splitOnChar sep s).length = 1 ↔ sep ∉ s := by
  induction s with
  | nil => simp [splitOnChar]
  | cons c rest ih =>
      have hne := splitOnChar_ne_nil sep rest
      have hlen : 1 ≤ (splitOnChar sep rest).length := by
        cases h : splitOnChar sep rest with
        | nil => exact absurd h hne
        | cons a t => simp
      simp only [splitOnChar, List.mem_cons]
      by_cases h : c = sep
      · rw [if_pos h]
        simp only [List.length_cons]
        constructor
        · intro hl
          exact (by omega : False).elim
        · intro hm
          exact absurd (Or.inl h.symm) hm
      · rw [if_neg h]
        simp only [List.length_cons, List.length_tail]
        constructor
        · intro hl hm
          rcases hm with hm | hm
          · exact h hm.symm
          · exact (ih.mp (by omega)) hm
        · intro hm
          have hni : sep ∉ rest := fun hx => hm (Or.inr hx)
          have := ih.mpr hni
          omega

/-- Claim C7: `yesno(suffix, default)` panics exactly when `suffix` contains no
`'/'` separator; when it does contain one, the widget returns `default` on an
immediate Enter, `false` after ArrowRight then Enter, and `true` after
ArrowLeft then Enter. -/
theorem yesno_spec :
    (∀ (suffix : Str) (d : Bool) (st : TermState) (ins : List Input),
        Terminal.yesno suffix d st ins = none ↔ '/' ∉ suffix) ∧
    (∀ (suffix : Str) (d : Bool) (st : TermState), '/' ∈ suffix →
        (Terminal.yesno suffix d st [Input.Character '\n']).map Prod.fst = some d ∧
        (Terminal.yesno suffix d st
            [Input.KeyRight, Input.Character '\n']).map Prod.fst = some false ∧
        (Terminal.yesno suffix d st
            [Input.KeyLeft, Input.Character '\n']).map Prod.fst = some true) := by
  have hEnter : get_char (some (Input.Character '\n')) = some Key.Enter := by decide
  have hRight : get_char (some Input.KeyRight) = some Key.ArrowRight := rfl
  have hLeft : get_char (some Input.KeyLeft) = some Key.ArrowLeft := rfl
  constructor
  · intro suffix d st ins
    by_cases hl : (splitOnChar '/' suffix).length = 1
    · simp only [Terminal.yesno, if_pos hl, true_iff]
      exact (splitOnChar_length_one_iff '/' suffix).mp hl
    · simp only [Terminal.yesno, if_neg hl]
      constructor
      · intro hsome
        exact absurd hsome (by simp)
      · intro hnot
        exact absurd ((splitOnChar_length_one_iff '/' suffix).mpr hnot) hl
  · intro suffix d st hmem
    have hl : ¬ (splitOnChar '/' suffix).length = 1 :=
      fun h => ((splitOnChar_length_one_iff '/' suffix).mp h) hmem
    refine ⟨?_, ?_, ?_⟩
    · simp only [Terminal.yesno, if_neg hl, yesnoLoop, hEnter]
      rfl
    · simp only [Terminal.yesno, if_neg hl, yesnoLoop, hEnter, hRight]
      rfl
    · simp only [Terminal.yesno, if_neg hl, yesnoLoop, hEnter, hLeft]
      rfl

/-- Witness for `yesno_spec` at the spec's own example `yesno("y/n", true)`
(and the panic case at a separator-free suffix). -/
theorem yesno_spec_witness :
    ('/' ∈ (['y', '/', 'n'] : Str)) ∧
    Terminal.yesno ['a', 'b'] true ⟨0, 0⟩ [] = none ∧
    (Terminal.yesno ['y', '/', 'n'] true ⟨0, 0⟩
        [Input.Character '\n']).map Prod.fst = some true ∧
    (Terminal.yesno ['y', '/', 'n'] true ⟨0, 0⟩
        [Input.KeyRight, Input.Character '\n']).map Prod.fst = some false :=
  ⟨by decide,
   (yesno_spec.1 ['a', 'b'] true ⟨0, 0⟩ []).mpr (by decide),
   (yesno_spec.2 ['y', '/', 'n'] true ⟨0, 0⟩ (by decide)).1,
   (yesno_spec.2 ['y', '/', 'n'] true ⟨0, 0⟩ (by decide)).2.1⟩

/-- Claim C4: in `ask`'s loop, `Alpha(c)` appends `c` to the accumulated
content; `Backspace` removes the last character when the content is non-empty
and, on empty content, leaves it unchanged while stepping the cursor right
once; every other key is ignored; `Enter` ends the loop, and `ask` returns the
accumulated content. In particular `ask("> ")` fed
`[A, p, p, l, e, Backspace, Backspace, Enter]` returns `"App"`. -/
theorem ask_spec :
    (∀ (inp : Input) (c : Char) (rest : List Input) (r : Layer) (st : TermState),
        get_char (some inp) = some (Key.Alpha c) →
        askLoop (inp :: rest) r st =
          askLoop rest (r.set_content (r.get_content ++ [c]))
            (draw_layer (r.set_content (r.get_content ++ [c])) st)) ∧
    (∀ (inp : Input) (rest : List Input) (r : Layer) (st : TermState),
        get_char (some inp) = some Key.Backspace → r.get_content ≠ [] →
        askLoop (inp :: rest) r st =
          askLoop rest (r.set_content r.get_content.dropLast)
            (draw_layer (r.set_content r.get_content.dropLast) st)) ∧
    (∀ (inp : Input) (rest : List Input) (r : Layer) (st : TermState),
        get_char (some inp) = some Key.Backspace → r.get_content = [] →
        askLoop (inp :: rest) r st =
          askLoop rest r { st with curx := st.curx + 1 }) ∧
    (∀ (inp : Input) (k : Key) (rest : List Input) (r : Layer) (st : TermState),
        get_char (some inp) = some k → k ≠ Key.Enter → k ≠ Key.Backspace →
        (∀ c, k ≠ Key.Alpha c) →
        askLoop (inp :: rest) r st = askLoop rest r st) ∧
    (∀ (inp : Input) (rest : List Input) (r : Layer) (st : TermState),
        get_char (some inp) = some Key.Enter →
        askLoop (inp :: rest) r st = (r, st)) ∧
    (∀ (pfx : Str) (st : TermState) (ins : List Input),
        Terminal.ask pfx st ins =
          ((askLoop ins (Layer.new (Terminal.out pfx st).curx (Terminal.out pfx st).cury)
              (Terminal.out pfx st)).1.get_content,
           (askLoop ins (Layer.new (Terminal.out pfx st).curx (Terminal.out pfx st).cury)
              (Terminal.out pfx st)).2)) ∧
    (Terminal.ask ['>', ' '] ⟨0, 0⟩
        [Input.Character 'A', Input.Character 'p', Input.Character 'p',
         Input.Character 'l', Input.Character 'e', Input.Character '\x08',
         Input.Character '\x08', Input.Character '\n']).1 = ['A', 'p', 'p'] := by
  refine ⟨?_, ?_, ?_, ?_, ?_, fun pfx st ins => rfl, by decide⟩
  · intro inp c rest r st h
    simp only [askLoop, h]
  · intro inp rest r st h hc
    cases hcc : r.get_content with
    | nil => exact absurd hcc hc
    | cons a t => simp only [askLoop, h, hcc]
  · intro inp rest r st h hc
    simp only [askLoop, h, hc, raw_move_next]
  · intro inp k rest r st h hE hB hA
    simp only [askLoop, h]
  · intro inp rest r st h
    simp only [askLoop, h]

/-- Witness for `ask_spec`: an Alpha step and an empty-content Backspace step
at concrete inputs. -/
theorem ask_spec_witness :
    get_char (some (Input.Character 'x')) = some (Key.Alpha 'x') ∧
    askLoop [Input.Character 'x'] (Layer.new 2 0) ⟨2, 0⟩ =
      askLoop [] ((Layer.new 2 0).set_content ((Layer.new 2 0).get_content ++ ['x']))
        (draw_layer ((Layer.new 2 0).set_content
          ((Layer.new 2 0).get_content ++ ['x'])) ⟨2, 0⟩) ∧
    askLoop [Input.Character '\x08'] (Layer.new 2 0) ⟨2, 0⟩ =
      askLoop [] (Layer.new 2 0) ⟨2 + 1, 0⟩ :=
  ⟨by decide,
   ask_spec.1 (Input.Character 'x') 'x' [] (Layer.new 2 0) ⟨2, 0⟩ (by decide),
   ask_spec.2.2.1 (Input.Character '\x08') [] (Layer.new 2 0) ⟨2, 0⟩
     (by decide) (by decide)⟩

theorem choicesRender_length (pfx : Str) (y : Nat) (layers : List Layer) :
    (choicesRender pfx y layers).length = layers.length := by
  simp [choicesRender]

theorem choicesRender_inner (pfx : Str) (y : Nat) (layers : List Layer) :
    (choicesRender pfx y layers).map Layer.inner_content =
      layers.map Layer.inner_content := by
  unfold choicesRender
  rw [List.map_map]
  have h : (Layer.inner_content ∘ fun p : Nat × Layer =>
      if p.1 = y then p.2.set_content (pfx ++ p.2.inner_content)
      else p.2.inner_to_outer) = Layer.inner_content ∘ Prod.snd := by
    funext p
    by_cases hp : p.1 = y <;>
      simp [hp, Function.comp, Layer.inner_to_outer, set_content_inner]
  rw [h, ← List.map_map, List.enum_map_snd]

theorem choicesInit_inner (pfx : Str) (strs : List Str) (st : TermState) :
    (choicesInit pfx strs st).map Layer.inner_content = strs := by
  unfold choicesInit
  rw [List.map_map]
  have h : (Layer.inner_content ∘ fun p : Nat × Str =>
      let l := Layer.new st.curx (st.cury + (p.1 : Int))
      let l := { l with inner_content := p.2 }
      if p.1 = 0 then l.set_content (pfx ++ l.inner_content)
      else l.inner_to_outer) = Prod.snd := by
    funext p
    by_cases hp : p.1 = 0 <;>
      simp [hp, Function.comp, Layer.inner_to_outer, set_content_inner]
  rw [h, List.enum_map_snd]

theorem choicesLoop_invariant (pfx : Str) (ins : List Input) :
    ∀ (layers : List Layer) (y : Nat) (st : TermState),
      (choicesLoop pfx ins layers y st).1.length = layers.length ∧
      (choicesLoop pfx ins layers y st).1.map Layer.inner_content =
        layers.map Layer.inner_content ∧
      (y ≤ layers.length - 1 →
        (choicesLoop pfx ins layers y st).2.1 ≤ layers.length - 1) := by
  induction ins with
  | nil => intro layers y st; exact ⟨rfl, rfl, fun h => h⟩
  | cons inp rest ih =>
      intro layers y st
      cases hk : get_char (some inp) with
      | none => simp [choicesLoop, hk]
      | some k =>
          cases k with
          | Enter => simp [choicesLoop, hk]
          | ArrowDown =>
              simp only [choicesLoop, hk]
              have hr := ih (choicesRender pfx
                (if y < layers.length - 1 then y + 1 else y) layers)
                (if y < layers.length - 1 then y + 1 else y) st
              rw [choicesRender_length] at hr
              refine ⟨hr.1, ?_, ?_⟩
              · rw [hr.2.1, choicesRender_inner]
              · intro hy
                exact hr.2.2 (by split <;> omega)
          | ArrowUp =>
              simp only [choicesLoop, hk]
              have hr := ih (choicesRender pfx
                (if 0 < y then y - 1 else y) layers)
                (if 0 < y then y - 1 else y) st
              rw [choicesRender_length] at hr
              refine ⟨hr.1, ?_, ?_⟩
              · rw [hr.2.1, choicesRender_inner]
              · intro hy
                exact hr.2.2 (by split <;> omega)
          | _ =>
              simp only [choicesLoop, hk]
              exact ih layers y st

/-- Claim C5: in `choices`'s loop, starting from selection 0, `ArrowDown`
advances the selection by one clamped at the last index (so a selection within
bounds never leaves them — no wraparound), `ArrowUp` retreats by one clamped
at 0 (`Nat`), `Enter` ends the loop, and the returned value is the
`inner_content` of the selected item, which the re-renders keep equal to the
original item string. In particular
`choices("-> ", ["c1","c22","c333","c4444"])` returns `"c333"` after
`[ArrowDown, ArrowDown, Enter]` and `"c1"` after `[ArrowUp, Enter]`. -/
theorem choices_spec :
    (∀ (pfx : Str) (inp : Input) (rest : List Input) (layers : List Layer)
        (y : Nat) (st : TermState),
        get_char (some inp) = some Key.ArrowDown →
        choicesLoop pfx (inp :: rest) layers y st =
          choicesLoop pfx rest
            (choicesRender pfx (if y < layers.length - 1 then y + 1 else y) layers)
            (if y < layers.length - 1 then y + 1 else y) st) ∧
    (∀ (pfx : Str) (inp : Input) (rest : List Input) (layers : List Layer)
        (y : Nat) (st : TermState),
        get_char (some inp) = some Key.ArrowUp →
        choicesLoop pfx (inp :: rest) layers y st =
          choicesLoop pfx rest
            (choicesRender pfx (if 0 < y then y - 1 else y) layers)
            (if 0 < y then y - 1 else y) st) ∧
    (∀ (pfx : Str) (ins : List Input) (layers : List Layer) (y : Nat)
        (st : TermState), y ≤ layers.length - 1 →
        (choicesLoop pfx ins layers y st).2.1 ≤ layers.length - 1) ∧
    (∀ (pfx : Str) (inp : Input) (rest : List Input) (layers : List Layer)
        (y : Nat) (st : TermState),
        get_char (some inp) = some Key.Enter →
        choicesLoop pfx (inp :: rest) layers y st = (layers, y, st)) ∧
    (∀ (pfx : Str) (ins : List Input) (layers : List Layer) (y : Nat)
        (st : TermState),
        (choicesLoop pfx ins layers y st).1.map Layer.inner_content =
          layers.map Layer.inner_content) ∧
    (∀ (pfx : Str) (strs : List Str) (st : TermState),
        (choicesInit pfx strs st).map Layer.inner_content = strs) ∧
    (Terminal.choices ['-', '>', ' ']
        [['c', '1'], ['c', '2', '2'], ['c', '3', '3', '3'], ['c', '4', '4', '4', '4']]
        ⟨0, 0⟩ [Input.KeyDown, Input.KeyDown, Input.Character '\n']).1 =
      some ['c', '3', '3', '3'] ∧
    (Terminal.choices ['-', '>', ' ']
        [['c', '1'], ['c', '2', '2'], ['c', '3', '3', '3'], ['c', '4', '4', '4', '4']]
        ⟨0, 0⟩ [Input.KeyUp, Input.Character '\n']).1 = some ['c', '1'] := by
  refine ⟨?_, ?_, ?_, ?_, ?_, choicesInit_inner, by decide, by decide⟩
  · intro pfx inp rest layers y st h
    simp only [choicesLoop, h]
  · intro pfx inp rest layers y st h
    simp only [choicesLoop, h]
  · intro pfx ins layers y st hy
    exact (choicesLoop_invariant pfx ins layers y st).2.2 hy
  · intro pfx inp rest layers y st h
    simp only [choicesLoop, h]
  · intro pfx ins layers y st
    exact (choicesLoop_invariant pfx ins layers y st).2.1

/-- Witness for `choices_spec`: an ArrowDown step and the selection bound at
concrete inputs. -/
theorem choices_spec_witness :
    get_char (some Input.KeyDown) = some Key.ArrowDown ∧
    choicesLoop [] [Input.KeyDown] [Layer.new 0 0, Layer.new 0 1] 0 ⟨0, 0⟩ =
      choicesLoop [] []
        (choicesRender [] (if 0 < ([Layer.new 0 0, Layer.new 0 1] : List Layer).length - 1
          then 0 + 1 else 0) [Layer.new 0 0, Layer.new 0 1])
        (if 0 < ([Layer.new 0 0, Layer.new 0 1] : List Layer).length - 1
          then 0 + 1 else 0) ⟨0, 0⟩ ∧
    ((0 : Nat) ≤ ([Layer.new 0 0, Layer.new 0 1] : List Layer).length - 1 ∧
      (choicesLoop [] [Input.KeyDown] [Layer.new 0 0, Layer.new 0 1] 0 ⟨0, 0⟩).2.1 ≤
        ([Layer.new 0 0, Layer.new 0 1] : List Layer).length - 1) :=
  ⟨rfl,
   choices_spec.1 [] Input.KeyDown [] [Layer.new 0 0, Layer.new 0 1] 0 ⟨0, 0⟩ rfl,
   by decide,
   choices_spec.2.2.1 [] [Input.KeyDown] [Layer.new 0 0, Layer.new 0 1] 0 ⟨0, 0⟩
     (by decide)⟩

theorem get_char_newline : get_char (some (Input.Character '\n')) = some Key.Enter := by
  decide

theorem askLoop_append_enter (ins : List Input) : ∀ (r : Layer) (st : TermState),
    askLoop (ins ++ [Input.Character '\n']) r st = askLoop ins r st := by
  induction ins with
  | nil =>
      intro r st
      simp [askLoop, get_char_newline]
  | cons inp rest ih =>
      intro r st
      cases hk : get_char (some inp)
      case none => simp [askLoop, hk]
      case some k =>
        cases k
        case Enter => simp [askLoop, hk]
        case Backspace =>
          cases hc : r.get_content
          case nil =>
            simp only [List.cons_append, askLoop, hk, hc]
            exact ih _ _
          case cons a t =>
            simp only [List.cons_append, askLoop, hk, hc]
            exact ih _ _
        all_goals simp only [List.cons_append, askLoop, hk]
        all_goals exact ih _ _

theorem maskLoop_append_enter (mchar : Char) (ins : List Input) :
    ∀ (r : Layer) (s : Str) (st : TermState),
      maskLoop mchar (ins ++ [Input.Character '\n']) r s st =
        maskLoop mchar ins r s st := by
  induction ins with
  | nil =>
      intro r s st
      simp [maskLoop, get_char_newline]
  | cons inp rest ih =>
      intro r s st
      cases hk : get_char (some inp)
      case none => simp [maskLoop, hk]
      case some k =>
        cases k
        case Enter => simp [maskLoop, hk]
        case Backspace =>
          cases hc : r.get_content
          case nil =>
            simp only [List.cons_append, maskLoop, hk, hc]
            exact ih _ _ _
          case cons a t =>
            simp only [List.cons_append, maskLoop, hk, hc]
            exact ih _ _ _
        all_goals simp only [List.cons_append, maskLoop, hk]
        all_goals exact ih _ _ _

theorem yesnoLoop_append_enter (ins : List Input) :
    ∀ (y n : Str) (ret : Bool) (ynl : Layer) (st : TermState),
      yesnoLoop (ins ++ [Input.Character '\n']) y n ret ynl st =
        yesnoLoop ins y n ret ynl st := by
  induction ins with
  | nil =>
      intro y n ret ynl st
      simp [yesnoLoop, get_char_newline]
  | cons inp rest ih =>
      intro y n ret ynl st
      cases hk : get_char (some inp)
      case none => simp [yesnoLoop, hk]
      case some k =>
        cases k
        case Enter => simp [yesnoLoop, hk]
        all_goals simp only [List.cons_append, yesnoLoop, hk]
        all_goals exact ih _ _ _ _ _

theorem choicesLoop_append_enter (pfx : Str) (ins : List Input) :
    ∀ (layers : List Layer) (y : Nat) (st : TermState),
      choicesLoop pfx (ins ++ [Input.Character '\n']) layers y st =
        choicesLoop pfx ins layers y st := by
  induction ins with
  | nil =>
      intro layers y st
      simp [choicesLoop, get_char_newline]
  | cons inp rest ih =>
      intro layers y st
      cases hk : get_char (some inp)
      case none => simp [choicesLoop, hk]
      case some k =>
        cases k
        case Enter => simp [choicesLoop, hk]
        all_goals simp only [List.cons_append, choicesLoop, hk]
        all_goals exact ih _ _ _

/-- Claim C6: when the key read returns `None` (end of input), every widget
loop — `ask`, `mask`, `yesno`, `choices` — terminates exactly as if `Enter`
had been pressed, returning the value accumulated so far: running any input
list is the same as running it with an explicit trailing Enter. -/
theorem widgets_none_is_enter :
    (∀ (pfx : Str) (st : TermState) (ins : List Input),
        Terminal.ask pfx st (ins ++ [Input.Character '\n']) =
          Terminal.ask pfx st ins) ∧
    (∀ (pfx : Str) (mchar : Char) (st : TermState) (ins : List Input),
        Terminal.mask pfx mchar st (ins ++ [Input.Character '\n']) =
          Terminal.mask pfx mchar st ins) ∧
    (∀ (suffix : Str) (d : Bool) (st : TermState) (ins : List Input),
        Terminal.yesno suffix d st (ins ++ [Input.Character '\n']) =
          Terminal.yesno suffix d st ins) ∧
    (∀ (pfx : Str) (strs : List Str) (st : TermState) (ins : List Input),
        Terminal.choices pfx strs st (ins ++ [Input.Character '\n']) =
          Terminal.choices pfx strs st ins) := by
  refine ⟨?_, ?_, ?_, ?_⟩
  · intro pfx st ins
    simp only [Terminal.ask, askLoop_append_enter]
  · intro pfx mchar st ins
    simp only [Terminal.mask, maskLoop_append_enter]
  · intro suffix d st ins
    by_cases hl : (splitOnChar '/' suffix).length = 1
    · simp only [Terminal.yesno, if_pos hl]
    · simp only [Terminal.yesno, if_neg hl, yesnoLoop_append_enter]
  · intro pfx strs st ins
    simp only [Terminal.choices, choicesLoop_append_enter]

/-- Witness for `add_layer2d_stack_loc`: the `add_layer` half evaluated on an
empty arrangement. -/
theorem add_layer2d_stack_loc_witness :
    ((Terminal.add_layer ⟨[]⟩ (Layer.new 0 0)).layer_stack.getLast?).map
      Layer2D.stack_loc = some (-((([] : List Layer2D).length : Nat) : Int)) :=
  add_layer2d_stack_loc.1 ⟨[]⟩ (Layer.new 0 0)

/-- Witness for `get_char_no_space` at a concrete input. -/
theorem get_char_no_space_witness :
    get_char (some (Input.Character ' ')) ≠ some Key.Space :=
  get_char_no_space.1 (some (Input.Character ' '))
